import Mathlib

/-!
Verification of the `python-esios` local cache core against its specification.

This file shallowly embeds the cache layer of `src/esios/cache.py`, the
indicator handle logic of `src/esios/managers/indicators.py`, the frame
conversion of `src/esios/processing/dataframes.py` and the archive expansion
of `src/esios/processing/zip.py`.

Modelling conventions:
* Timestamps are natural numbers counting hours since an epoch; one calendar
  day is 24 units.  The code manipulates `pd.Timestamp`s, uses
  `pd.Timedelta(hours=1)` as the one-unit step in `find_gaps` and
  `pd.Timedelta(days=1)` in `_merge_overlapping`, so the hour granularity is
  exact for everything proved here.  Timezone normalisation
  (`tz_localize("UTC")` / `tz_convert("UTC")`) is the identity on instants,
  so naive timestamps are identified with their UTC instants.
* A pandas wide DataFrame is a `Frame`: a row index (`idx`), a column list
  (`cols`) and the set of non-NaN cells (`cells`); a `(t, c)` pair with no
  cell is a NaN hole.  An all-NaN column is representable (the column is
  listed in `cols` with no cell), exactly as in pandas.
* Floating point cell values never enter any computation performed by the
  cache (they are only moved around), so cell values are modelled as `Int`.
-/

namespace Esios

/-- One non-NaN cell of a wide frame: a timestamp, a column name (geo name or
the literal "value") and the stored numeric value. -/
structure Cell where
  t : Nat
  col : String
  v : Int
deriving DecidableEq, Repr

/-- A pandas wide DataFrame as produced and consumed by `CacheStore`:
`idx` is the DatetimeIndex, `cols` the column labels, `cells` the non-NaN
entries.  NaN holes are the `(t, c)` pairs with no cell. -/
structure Frame where
  idx : List Nat
  cols : List String
  cells : List Cell
deriving DecidableEq, Repr

/-- Well-formed frame: no duplicate index entries, no duplicate column
labels, at most one cell per `(t, c)` key, and every cell lies on the
grid `idx × cols` (the invariants of a pandas wide frame). -/
def Frame.WF (f : Frame) : Prop :=
  f.idx.Nodup ∧ f.cols.Nodup ∧
  (f.cells.map (fun x => (x.t, x.col))).Nodup ∧
  (∀ x ∈ f.cells, x.t ∈ f.idx ∧ x.col ∈ f.cols)

instance (f : Frame) : Decidable f.WF := by
  unfold Frame.WF; infer_instance

/-- `df.empty` in pandas: true when either axis is empty. -/
def Frame.isEmpty (f : Frame) : Bool :=
  f.idx.isEmpty || f.cols.isEmpty

/-- Cell access `df.at[t, c]`: `some v` for a non-NaN cell, `none` for a
NaN hole. -/
def Frame.lookup (f : Frame) (t : Nat) (c : String) : Option Int :=
  (f.cells.find? (fun x => x.t == t && x.col == c)).map (fun x => x.v)

/-- True when the frame has a non-NaN cell at `(t, c)`. -/
def Frame.keyMem (f : Frame) (t : Nat) (c : String) : Bool :=
  f.cells.any (fun x => x.t == t && x.col == c)

/-- `pd.DataFrame()`: the empty frame returned on cache miss. -/
def emptyFrame : Frame := ⟨[], [], []⟩

/-- `new.combine_first(existing)` (cache.py line 232): align on the union of
indices and columns; for every cell take the value of `new` when non-NaN,
else the value of `existing`. -/
def Frame.combine_first (n e : Frame) : Frame :=
  ⟨(n.idx ++ e.idx).dedup,
   (n.cols ++ e.cols).dedup,
   n.cells ++ e.cells.filter (fun x => !(n.keyMem x.t x.col))⟩

/-- `df.sort_index()` (cache.py lines 233 and 235): sort the row index. -/
def Frame.sort_index (f : Frame) : Frame :=
  ⟨List.insertionSort (· ≤ ·) f.idx, f.cols, f.cells⟩

/-- The parsed state of the on-disk `data.parquet` file of one item:
missing, unreadable by `pd.read_parquet`, or a frame. -/
inductive FileState where
  | absent : FileState
  | corrupt : FileState
  | valid : Frame → FileState
deriving DecidableEq, Repr

/-- `CacheStore.write` (cache.py lines 204-237) acting on the stored file:
empty input returns without touching the file; otherwise the existing file
is read (an unreadable or missing file counts as empty), the new frame is
merged over it with `combine_first`, the result is sorted by index and
persisted. -/
def CacheStore.write (fc : FileState) (df : Frame) : FileState :=
  if df.isEmpty then fc
  else
    let existing : Frame :=
      match fc with
      | FileState.valid e => e
      | _ => emptyFrame
    if existing.isEmpty then FileState.valid df.sort_index
    else FileState.valid ((df.combine_first existing).sort_index)

/-- A contiguous date range `[start, stop]`, both bounds inclusive
(`DateRange` in cache.py; the upper bound is named `end` in the source,
which is a reserved word here). -/
structure DateRange where
  start : Nat
  stop : Nat
deriving DecidableEq, Repr

/-- `_to_naive_date` (cache.py lines 483-485): truncate a timestamp to the
start of its calendar day (`pd.Timestamp(ts.date())`). -/
def toNaiveDate (t : Nat) : Nat := 24 * (t / 24)

/-- Last hour of the calendar day of `t`. -/
def dayEnd (t : Nat) : Nat := toNaiveDate t + 23

/-- Minimum of a nonempty list of timestamps (`idx.min()`); 0 on `[]`,
which is never reached by `find_gaps`. -/
def listMin : List Nat → Nat
  | [] => 0
  | [a] => a
  | a :: b :: rest => min a (listMin (b :: rest))

/-- Maximum of a nonempty list of timestamps (`idx.max()`); 0 on `[]`,
which is never reached by `find_gaps`. -/
def listMax : List Nat → Nat
  | [] => 0
  | [a] => a
  | a :: b :: rest => max a (listMax (b :: rest))

/-- Ordering of date ranges by start, the sort key of
`_merge_overlapping` (`sorted(gaps, key=lambda g: g.start)`). -/
def rangeLE (a b : DateRange) : Prop := a.start ≤ b.start

instance : DecidableRel rangeLE := fun a b => Nat.decLe a.start b.start

instance : IsTotal DateRange rangeLE := ⟨fun a b => Nat.le_total a.start b.start⟩

instance : IsTrans DateRange rangeLE := ⟨fun _ _ _ => Nat.le_trans⟩

/-- The accumulator loop of `_merge_overlapping` (cache.py lines 496-501):
fold the sorted tail into the last merged range, merging ranges whose start
is within one day (24 hours) of the previous end. -/
def mergeLoop (acc : DateRange) : List DateRange → List DateRange
  | [] => [acc]
  | g :: gs =>
    if g.start ≤ acc.stop + 24 then mergeLoop ⟨acc.start, max acc.stop g.stop⟩ gs
    else acc :: mergeLoop g gs

/-- `_merge_overlapping` (cache.py lines 488-503): sort by start, then merge
overlapping or adjacent (touching within one day) ranges. -/
def mergeOverlapping (gaps : List DateRange) : List DateRange :=
  match List.insertionSort rangeLE gaps with
  | [] => []
  | g :: gs => mergeLoop g gs

/-- Row timestamps at which all requested columns are non-NaN: the index of
`cached_df[cached_df[columns].notna().all(axis=1)]` (cache.py lines 270-271). -/
def effectiveIdx (f : Frame) (columns : List String) : List Nat :=
  f.idx.filter (fun t => columns.all (fun c => (f.lookup t c).isSome))

/-- The pre-gap candidate of `find_gaps` (cache.py lines 292-295): when the
request starts before the cached coverage, `[start, min(cached_start - 1h,
end)]`, the upper bound truncated to its date by `_to_naive_date`. -/
def preGap (cachedStart start stop : Nat) : List DateRange :=
  if start < cachedStart then
    let gapEnd := min (cachedStart - 1) stop
    if start ≤ gapEnd then [⟨start, toNaiveDate gapEnd⟩] else []
  else []

/-- The post-gap candidate of `find_gaps` (cache.py lines 297-300): when the
request ends after the cached coverage, `[max(cached_end + 1h, start), end]`,
the lower bound truncated to its date. -/
def postGap (cachedEnd start stop : Nat) : List DateRange :=
  if cachedEnd < stop then
    let gapStart := max (cachedEnd + 1) start
    if gapStart ≤ stop then [⟨toNaiveDate gapStart, stop⟩] else []
  else []

/-- The recent-refresh candidate of `find_gaps` (cache.py lines 302-305):
when both the cached maximum and the request end lie past the cutoff,
`[max(cutoff, start), end]`, the lower bound truncated to its date. -/
def recentGap (cachedEnd start stop cutoff : Nat) : List DateRange :=
  if cutoff < cachedEnd && cutoff < stop then
    let recentStart := max cutoff start
    if recentStart ≤ stop then [⟨toNaiveDate recentStart, stop⟩] else []
  else []

/-- The column-selection step of `find_gaps` (cache.py lines 262-275):
`none` requests an early `[DateRange(start, end)]` return (missing column
or no row with all requested columns non-NaN); `some ei` is the index used
for coverage (the full index when no columns were requested). -/
def effSelect (cached : Frame) (columns : List String) : Option (List Nat) :=
  if columns.isEmpty then some cached.idx
  else if columns.any (fun c => !(cached.cols.contains c)) then none
  else if (effectiveIdx cached columns).isEmpty then none
  else some (effectiveIdx cached columns)

/-- `CacheStore.find_gaps` (cache.py lines 241-307).

`columns = []` models the Python falsy cases `columns=None` and
`columns=[]` (the `if columns:` guard).  `now` is the value of
`pd.Timestamp.now(tz="UTC")` and `ttl` the resolved `recent_ttl_hours`;
the cutoff is `now - ttl` hours.  Timestamps are UTC instants, so the
source's tz normalisation is the identity here. -/
def CacheStore.find_gaps (cached : Frame) (start stop : Nat)
    (columns : List String) (now ttl : Nat) : List DateRange :=
  let cutoff := now - ttl
  if cached.isEmpty then [⟨start, stop⟩]
  else
    match effSelect cached columns with
    | none => [⟨start, stop⟩]
    | some ei =>
      mergeOverlapping
        (preGap (listMin ei) start stop
          ++ postGap (listMax ei) start stop
          ++ recentGap (listMax ei) start stop cutoff)

/-- Day-granular coverage of a returned `DateRange`, as the range is
consumed by `IndicatorHandle.historical` (managers/indicators.py lines
179-192): each fetched chunk truncates its start to the calendar date
(`current.strftime("%Y-%m-%d")`) and extends its end to the whole day
(`+ "T23:59:59"`), so a range satisfies every timestamp from the start of
its first day to the end of its last day.  This also matches the spec's
"a date-only upper bound means the whole day". -/
def DateRange.covers (r : DateRange) (t : Nat) : Prop :=
  toNaiveDate r.start ≤ t ∧ t ≤ dayEnd r.stop

instance (r : DateRange) (t : Nat) : Decidable (r.covers t) := by
  unfold DateRange.covers; infer_instance

/-- `CacheStore._slice` (cache.py lines 188-202) restricted to the index:
select rows in `[start, stop]`, where a date-level (midnight) upper bound is
extended to the end of its day (`end + 1 day - 1 second`; last hour at this
granularity).  Timezone localisation of naive bounds is the identity on
instants. -/
def CacheStore.slice (df : Frame) (start stop : Nat) : Frame :=
  let stop2 := if stop % 24 == 0 then stop + 24 - 1 else stop
  ⟨df.idx.filter (fun t => start ≤ t && t ≤ stop2),
   df.cols,
   df.cells.filter (fun x => start ≤ x.t && x.t ≤ stop2)⟩

/-- `df[existing]`: keep all rows, restrict to the listed columns. -/
def restrictCols (df : Frame) (cs : List String) : Frame :=
  ⟨df.idx, cs, df.cells.filter (fun x => cs.contains x.col)⟩

/-- `CacheStore.read` (cache.py lines 148-186) acting on the data file of an
item.  `parse` abstracts `pd.read_parquet`: `none` means the byte sequence
raised (corruption).  Returns the resulting frame and the file afterwards:
a missing file yields an empty frame; an unparsable file is deleted
(`path.unlink`) and yields an empty frame; a frame that is empty is returned
as `pd.DataFrame()` without deleting the file (the source's DatetimeIndex
check is vacuous here since `parse` only produces frames); otherwise the
frame is sliced to `[start, stop]` and filtered to the requested columns,
returning empty when none of them exist. -/
def CacheStore.read (parse : List Nat → Option Frame) (file : Option (List Nat))
    (start stop : Nat) (columns : List String) : Frame × Option (List Nat) :=
  match file with
  | none => (emptyFrame, none)
  | some b =>
    match parse b with
    | none => (emptyFrame, none)
    | some df =>
      if df.isEmpty then (emptyFrame, some b)
      else
        let df1 := CacheStore.slice df start stop
        if columns.isEmpty then (df1, some b)
        else
          let existing := columns.filter (fun c => df1.cols.contains c)
          if existing.isEmpty then (emptyFrame, some b)
          else (restrictCols df1 existing, some b)

/-- True when `file` lies strictly inside the directory `dir`
(component-wise: `dir` is an initial segment of the file's path). -/
def underDir (dir : List String) : List String → Bool
  | [] => dir.isEmpty
  | c :: rest =>
    match dir with
    | [] => true
    | d :: ds => d == c && underDir ds rest

/-- `CacheStore.clear` (cache.py lines 424-450) acting on the set of cached
files (each file a path, as components relative to the filesystem root).
Mirrors the Python truthiness of the guards: `if endpoint and indicator_id
is not None` (an endpoint of `None` or `""` is falsy), `elif endpoint`,
`else`.  Returns the number of files removed (`rglob("*")` count of the
removed subtree) and the files remaining after `shutil.rmtree`. -/
def CacheStore.clear (files : List (List String)) (cacheDir : List String)
    (endpoint : Option String) (indicatorId : Option Nat) :
    Nat × List (List String) :=
  let truthy : Bool := match endpoint with
    | some s => !(s == "")
    | none => false
  let target : List String :=
    if truthy && indicatorId.isSome then
      cacheDir ++ [endpoint.getD "", toString (indicatorId.getD 0)]
    else if truthy then
      cacheDir ++ [endpoint.getD ""]
    else cacheDir
  ((files.filter (fun f => underDir target f)).length,
   files.filter (fun f => !(underDir target f)))

/-- `TIMEZONE` (constants.py line 20). -/
def TIMEZONE : String := "Europe/Madrid"

/-- One element of the API response `values` list, as consumed by
`to_dataframe` and `_enrich_geo_map`.  The `datetime` string is an aware
timestamp modelled as a local clock reading plus its UTC offset (hours);
mixed-offset inputs are lists whose elements carry different offsets. -/
structure RawValue where
  dtLocal : Int
  dtOffset : Int
  geoId : Option Int
  geoName : Option String
  value : Int
deriving DecidableEq, Repr

/-- `pd.to_datetime(df["datetime"], utc=True)` on one value: an aware
timestamp denotes the UTC instant `local - offset`. -/
def parseUTC (v : RawValue) : Int := v.dtLocal - v.dtOffset

/-- The DatetimeIndex of a frame together with its timezone tag.
`tz_convert` changes the tag but preserves the instants. -/
structure TZIndex where
  instants : List Int
  tz : String
deriving DecidableEq, Repr

/-- Index produced by `to_dataframe` (processing/dataframes.py lines 29-31):
parse every `datetime` as UTC, then `tz_convert(timezone)` — same instants,
index timezone set to `timezone`. -/
def toDataframeIdx (values : List RawValue) (timezone : String) : TZIndex :=
  ⟨values.map parseUTC, timezone⟩

/-- Index of the wide frame built by `IndicatorHandle._to_wide`
(managers/indicators.py lines 223-254) and then passed to
`CacheStore.write`: `to_dataframe(values, timezone=TIMEZONE,
pivot_geo=False)` followed by `pivot_table` + `sort_index`, whose index is
the sorted de-duplicated datetimes.  `none` models the empty
`pd.DataFrame()` returned for an empty values list. -/
def IndicatorHandle.toWideIdx (values : List RawValue) : Option TZIndex :=
  if values.isEmpty then none
  else
    let d := toDataframeIdx values TIMEZONE
    some ⟨List.insertionSort (· ≤ ·) d.instants.dedup, d.tz⟩

/-- `IndicatorHandle._enrich_geo_map` (managers/indicators.py lines 49-63):
append every `(geo_id, geo_name)` pair seen in the response values whose id
is not already known to the item's in-memory metadata geo list (a `geo_name`
of `None` or `""` is falsy and skipped). -/
def IndicatorHandle.enrichGeoMap (geos : List (Int × String))
    (values : List RawValue) : List (Int × String) :=
  values.foldl (fun acc v =>
    match v.geoId, v.geoName with
    | some gid, some gname =>
      if !(gname == "") && !(acc.any (fun g => g.1 == gid)) then
        acc ++ [(gid, gname)]
      else acc
    | _, _ => acc) geos

/-- The geo-related state touched by `IndicatorHandle.historical`: the
handle's in-memory metadata geo list and the persisted global registry
(`geos.json`). -/
structure GeoState where
  handleGeos : List (Int × String)
  registry : List (Int × String)
deriving DecidableEq, Repr

/-- The geo side-effects of one `historical` call (managers/indicators.py
line 195): `self._enrich_geo_map(all_values)` updates the handle's metadata
in memory; no code path of `historical` (or of anything else in the
package) calls `CacheStore.merge_geos`, so the registry is unchanged. -/
def IndicatorHandle.historicalGeoEffects (st : GeoState)
    (values : List RawValue) : GeoState :=
  ⟨IndicatorHandle.enrichGeoMap st.handleGeos values, st.registry⟩

/-- Substring test on character lists: does `hay` start with `needle`? -/
def charsStartWith : List Char → List Char → Bool
  | [], _ => true
  | _ :: _, [] => false
  | a :: as, b :: bs => a == b && charsStartWith as bs

/-- Python's `needle in hay` on strings, as character lists. -/
def charsContain (needle : List Char) : List Char → Bool
  | [] => charsStartWith needle []
  | b :: bs => charsStartWith needle (b :: bs) || charsContain needle bs

/-- Accumulator for decimal digit parsing. -/
def digitsValAux : Nat → List Char → Option Nat
  | acc, [] => some acc
  | acc, c :: rest =>
    if c.isDigit then digitsValAux (acc * 10 + (c.toNat - 48)) rest else none

/-- Python's `int(ref)` on a string: optional sign followed by decimal
digits, `none` on anything else (`ValueError`); surrounding whitespace,
which Python would strip, is not modelled. -/
def strToIntOpt (s : String) : Option Int :=
  match s.data with
  | [] => none
  | '-' :: rest => match rest with
    | [] => none
    | _ => (digitsValAux 0 rest).map (fun n => -(n : Int))
  | '+' :: rest => match rest with
    | [] => none
    | _ => (digitsValAux 0 rest).map (fun n => (n : Int))
  | cs => (digitsValAux 0 cs).map (fun n => (n : Int))

/-- ASCII lowercasing of one character, which agrees with Python's
`str.lower` on every geo name appearing in this development. -/
def charLower (c : Char) : Char :=
  if 'A' ≤ c ∧ c ≤ 'Z' then Char.ofNat (c.toNat + 32) else c

/-- `IndicatorHandle.resolve_geo` (managers/indicators.py lines 72-98) for a
string reference: try integer parsing first (`int(ref)`), then return the
first geo of the item's own metadata whose lowercased name contains the
lowercased reference as a substring; `none` models the `ValueError` raised
when nothing matches.  Only the item's metadata list is consulted — there is
no fallback to the global registry. -/
def IndicatorHandle.resolveGeo (geos : List (Int × String)) (ref : String) :
    Option Int :=
  match strToIntOpt ref with
  | some n => some n
  | none =>
    let refLower := ref.data.map charLower
    match geos.find? (fun g => charsContain refLower (g.2.data.map charLower)) with
    | some g => some g.1
    | none => none

/-- The persisted `catalog.json` of an endpoint: an `updated_at` instant
(hours) and the stored items `(id, name, short_name)`. -/
structure CatalogFile where
  updatedAt : Nat
  items : List (Nat × String × String)
deriving DecidableEq, Repr

/-- `CacheStore.read_catalog` (cache.py lines 347-374): `none` when the file
is missing or older than the TTL (`datetime.now() - cached_time > ttl`),
else the stored items. -/
def CacheStore.read_catalog (file : Option CatalogFile) (now ttlHours : Nat) :
    Option (List (Nat × String × String)) :=
  match file with
  | none => none
  | some c => if ttlHours < now - c.updatedAt then none else some c.items

/-- `IndicatorsManager.list` (managers/indicators.py lines 278-284) acting
on the catalogue state: the body performs exactly one transport call
(`self._get("indicators")`), converts descriptions to text, and returns the
response; it contains no call to `read_catalog` or `write_catalog`.
Result: (returned items, number of transport calls, catalogue file
afterwards). -/
def IndicatorsManager.list (backend : List (Nat × String × String))
    (catalogFile : Option CatalogFile) :
    List (Nat × String × String) × Nat × Option CatalogFile :=
  (backend, 1, catalogFile)

/-- Two consecutive `list()` calls: total number of transport calls. -/
def IndicatorsManager.listTwiceCalls (backend : List (Nat × String × String))
    (catalogFile : Option CatalogFile) : Nat :=
  let r1 := IndicatorsManager.list backend catalogFile
  let r2 := IndicatorsManager.list backend r1.2.2
  r1.2.1 + r2.2.1

/-- A member of a ZIP container: a plain file entry or a nested archive
entry (whose own members are known).  Member names may contain `/`
separators, `..` segments or be absolute, exactly as in a crafted archive. -/
inductive ZMember where
  | file : String → ZMember
  | archive : String → List ZMember → ZMember

/-- A filesystem path: absolute flag plus components. -/
structure FsPath where
  abs : Bool
  comps : List String
deriving DecidableEq, Repr

/-- Split a character list at every occurrence of `sep`, keeping empty
pieces — the semantics of both Python's `str.split` and `String.splitOn`
for a single-character separator. -/
def charsSplitOn (sep : Char) : List Char → List (List Char)
  | [] => [[]]
  | c :: rest =>
    match charsSplitOn sep rest with
    | [] => [[c]]
    | h :: t => if c == sep then [] :: h :: t else (c :: h) :: t

/-- Does `s` end in `.zip` (`filename.endswith(".zip")`)? -/
def strEndsWithZip (s : String) : Bool :=
  charsStartWith (".zip".data.reverse) (s.data.reverse)

/-- Does `s` start with `/`, i.e. is it an absolute POSIX path? -/
def strStartsWithSlash (s : String) : Bool :=
  match s.data with
  | '/' :: _ => true
  | _ => false

/-- Path components of a string, POSIX style (empty components collapse,
as `pathlib` does). -/
def splitComponents (s : String) : List String :=
  ((charsSplitOn '/' s.data).map String.mk).filter (fun c => !(c == ""))

/-- `pathlib`'s `folder / name`: an absolute right operand replaces the
base entirely. -/
def pathJoin (p : FsPath) (s : String) : FsPath :=
  if strStartsWithSlash s then ⟨true, splitComponents s⟩
  else ⟨p.abs, p.comps ++ splitComponents s⟩

/-- The sanitisation CPython's `ZipFile._extract_member` applies to a member
name before joining it to the target directory: drop empty, `.` and `..`
components (the drive split is a no-op on POSIX).  The result is always a
relative path under the target — members are sanitised, not rejected. -/
def sanitizeArc (name : String) : List String :=
  ((charsSplitOn '/' name.data).map String.mk).filter
    (fun c => !(c == "" || c == "." || c == ".."))

/-- `filename.split(".")[0]` (processing/zip.py line 44), the directory name
chosen for a nested archive. -/
def firstDotToken (name : String) : String :=
  String.mk ((charsSplitOn '.' name.data).headD [])

mutual

/-- `ZipExtractor.unzip` (processing/zip.py lines 39-53) on one member, with
the default `overwrite=True`: a member whose name ends in `.zip` is opened
as a nested archive and extracted under `folder / filename.split(".")[0]`;
any other member is extracted by `ZipFile.extract`, which writes
`folder ++ sanitizeArc name`.  A plain member named `*.zip` raises
`BadZipFile` in the source; it is modelled as writing nothing and is
excluded by `noBadZip` wherever it matters.  Returns the written paths. -/
def unzipMember (folder : FsPath) : ZMember → List FsPath
  | ZMember.file name =>
    if strEndsWithZip name then []
    else [⟨folder.abs, folder.comps ++ sanitizeArc name⟩]
  | ZMember.archive name ms =>
    if strEndsWithZip name then
      unzipList (pathJoin folder (firstDotToken name)) ms
    else [⟨folder.abs, folder.comps ++ sanitizeArc name⟩]

/-- `ZipExtractor.unzip` over the member list (iteration order of
`NameToInfo`). -/
def unzipList (folder : FsPath) : List ZMember → List FsPath
  | [] => []
  | m :: rest => unzipMember folder m ++ unzipList folder rest

end

mutual

/-- No plain member is named `*.zip` (such a member makes the source raise
`BadZipFile` instead of extracting). -/
def noBadZip : ZMember → Bool
  | ZMember.file name => !(strEndsWithZip name)
  | ZMember.archive _ ms => noBadZipList ms

def noBadZipList : List ZMember → Bool
  | [] => true
  | m :: rest => noBadZip m && noBadZipList rest

end

mutual

/-- Every nested archive, at any depth, has a relative name (its
`split(".")[0]` token does not start with `/`). -/
def relativeNested : ZMember → Bool
  | ZMember.file _ => true
  | ZMember.archive name ms =>
    !(strStartsWithSlash (firstDotToken name)) && relativeNestedList ms

def relativeNestedList : List ZMember → Bool
  | [] => true
  | m :: rest => relativeNested m && relativeNestedList rest

end

/-! ### Theorems -/

theorem find?_filter_of_imp {α : Type} (l : List α) (p q : α → Bool)
    (h : ∀ x, p x = true → q x = true) :
    (l.filter q).find? p = l.find? p := by
  induction l with
  | nil => rfl
  | cons a l ih =>
    cases hq : q a with
    | true =>
      cases hp : p a with
      | true => simp [List.filter_cons, hq, List.find?, hp]
      | false => simp [List.filter_cons, hq, List.find?, hp, ih]
    | false =>
      have hp : p a = false := by
        cases hpa : p a with
        | false => rfl
        | true => rw [h a hpa] at hq; exact absurd hq (by simp)
      simp [List.filter_cons, hq, List.find?, hp, ih]

theorem lookup_combine_first (n e : Frame) (t : Nat) (c : String) :
    (n.combine_first e).lookup t c = (n.lookup t c).or (e.lookup t c) := by
  unfold Frame.lookup Frame.combine_first
  simp only [List.find?_append]
  cases hfind : n.cells.find? (fun x => x.t == t && x.col == c) with
  | some x => simp [Option.or]
  | none =>
    simp only [Option.map_none, Option.or, Option.none_or]
    congr 1
    apply find?_filter_of_imp
    intro x hx
    have hxt : x.t = t ∧ x.col = c := by
      have := hx
      simp only [Bool.and_eq_true, beq_iff_eq] at this
      exact this
    have hnone := List.find?_eq_none.mp hfind
    unfold Frame.keyMem
    rw [Bool.not_eq_true', List.any_eq_false]
    intro y hy
    rw [hxt.1, hxt.2]
    exact hnone y hy

theorem lookup_sort_index (f : Frame) (t : Nat) (c : String) :
    f.sort_index.lookup t c = f.lookup t c := rfl

/-- **C1.** For every non-empty wide frame `N` written via `CacheStore.write`
over an existing stored frame `E`, the persisted result is the cell-wise
merge: each `(t, c)` cell holds `N[t,c]` when `N` is non-NaN there and
`E[t,c]` otherwise; writing a frame containing only column `A` leaves every
value of a previously stored column `B` unchanged; the result index is
sorted; and writing an empty frame changes nothing. -/
theorem write_merges_cellwise (N E : Frame)
    (hN : N.isEmpty = false) (hE : E.isEmpty = false) :
    CacheStore.write (FileState.valid E) N
      = FileState.valid ((N.combine_first E).sort_index)
    ∧ (∀ t c, ((N.combine_first E).sort_index).lookup t c
        = (N.lookup t c).or (E.lookup t c))
    ∧ List.Sorted (· ≤ ·) ((N.combine_first E).sort_index).idx
    ∧ (∀ B, (∀ t, N.lookup t B = none) →
        ∀ t, ((N.combine_first E).sort_index).lookup t B = E.lookup t B)
    ∧ (∀ fc df, df.isEmpty = true → CacheStore.write fc df = fc) := by
  refine ⟨?_, ?_, ?_, ?_, ?_⟩
  · unfold CacheStore.write
    simp [hN, hE]
  · intro t c
    rw [lookup_sort_index, lookup_combine_first]
  · exact List.sorted_insertionSort _ _
  · intro B hB t
    rw [lookup_sort_index, lookup_combine_first, hB t, Option.none_or]
  · intro fc df hdf
    unfold CacheStore.write
    simp [hdf]

theorem write_merges_cellwise_witness :
    ((⟨[10], ["A"], [⟨10, "A", 5⟩]⟩ : Frame).isEmpty = false)
    ∧ ((⟨[10, 20], ["B"], [⟨10, "B", 7⟩, ⟨20, "B", 8⟩]⟩ : Frame).isEmpty = false)
    ∧ (CacheStore.write
        (FileState.valid ⟨[10, 20], ["B"], [⟨10, "B", 7⟩, ⟨20, "B", 8⟩]⟩)
        ⟨[10], ["A"], [⟨10, "A", 5⟩]⟩
      = FileState.valid (((⟨[10], ["A"], [⟨10, "A", 5⟩]⟩ : Frame).combine_first
          ⟨[10, 20], ["B"], [⟨10, "B", 7⟩, ⟨20, "B", 8⟩]⟩).sort_index)) :=
  ⟨by decide, by decide,
    (write_merges_cellwise ⟨[10], ["A"], [⟨10, "A", 5⟩]⟩
      ⟨[10, 20], ["B"], [⟨10, "B", 7⟩, ⟨20, "B", 8⟩]⟩
      (by decide) (by decide)).1⟩

theorem toNaiveDate_le (t : Nat) : toNaiveDate t ≤ t := by
  unfold toNaiveDate
  calc 24 * (t / 24) = t / 24 * 24 := Nat.mul_comm _ _
    _ ≤ t := Nat.div_mul_le_self t 24

theorem le_dayEnd (t : Nat) : t ≤ dayEnd t := by
  unfold dayEnd toNaiveDate
  have h := Nat.div_add_mod t 24
  have h2 : t % 24 < 24 := Nat.mod_lt t (by norm_num)
  omega

theorem toNaiveDate_mono {a b : Nat} (h : a ≤ b) :
    toNaiveDate a ≤ toNaiveDate b :=
  Nat.mul_le_mul_left 24 (Nat.div_le_div_right h)

theorem dayEnd_mono {a b : Nat} (h : a ≤ b) : dayEnd a ≤ dayEnd b :=
  Nat.add_le_add_right (toNaiveDate_mono h) 23

theorem toNaiveDate_idem (t : Nat) : toNaiveDate (toNaiveDate t) = toNaiveDate t := by
  unfold toNaiveDate
  rw [Nat.mul_div_cancel_left (t / 24) (by norm_num)]

theorem dayEnd_toNaiveDate (t : Nat) : dayEnd (toNaiveDate t) = dayEnd t := by
  unfold dayEnd
  rw [toNaiveDate_idem]

theorem dayEnd_lt_toNaiveDate {a b : Nat} (h : a + 25 ≤ b) :
    dayEnd a < toNaiveDate b := by
  have h1 : toNaiveDate (a + 24) ≤ toNaiveDate b := toNaiveDate_mono (by omega)
  have h2 : toNaiveDate (a + 24) = toNaiveDate a + 24 := by
    unfold toNaiveDate
    rw [Nat.add_div_right a (by norm_num)]
    ring
  unfold dayEnd
  omega

theorem listMin_le : ∀ (l : List Nat), ∀ x ∈ l, listMin l ≤ x := by
  intro l
  induction l with
  | nil => intro x hx; cases hx
  | cons a rest ih =>
    intro x hx
    cases rest with
    | nil =>
      simp only [List.mem_singleton] at hx
      subst hx; exact Nat.le_refl _
    | cons b r2 =>
      rw [List.mem_cons] at hx
      cases hx with
      | inl h => subst h; exact Nat.min_le_left _ _
      | inr h =>
        exact Nat.le_trans (Nat.min_le_right _ _) (ih x h)

theorem le_listMax : ∀ (l : List Nat), ∀ x ∈ l, x ≤ listMax l := by
  intro l
  induction l with
  | nil => intro x hx; cases hx
  | cons a rest ih =>
    intro x hx
    cases rest with
    | nil =>
      simp only [List.mem_singleton] at hx
      subst hx; exact Nat.le_refl _
    | cons b r2 =>
      rw [List.mem_cons] at hx
      cases hx with
      | inl h => subst h; exact Nat.le_max_left _ _
      | inr h =>
        exact Nat.le_trans (ih x h) (Nat.le_max_right _ _)

theorem listMin_mem : ∀ (l : List Nat), l ≠ [] → listMin l ∈ l := by
  intro l
  induction l with
  | nil => intro h; exact absurd rfl h
  | cons a rest ih =>
    intro _
    cases rest with
    | nil => exact List.mem_singleton.mpr rfl
    | cons b r2 =>
      show min a (listMin (b :: r2)) ∈ a :: b :: r2
      rcases Nat.le_total a (listMin (b :: r2)) with h | h
      · rw [Nat.min_eq_left h]; exact List.mem_cons_self _ _
      · rw [Nat.min_eq_right h]
        exact List.mem_cons_of_mem _ (ih (by simp))

theorem listMax_mem : ∀ (l : List Nat), l ≠ [] → listMax l ∈ l := by
  intro l
  induction l with
  | nil => intro h; exact absurd rfl h
  | cons a rest ih =>
    intro _
    cases rest with
    | nil => exact List.mem_singleton.mpr rfl
    | cons b r2 =>
      show max a (listMax (b :: r2)) ∈ a :: b :: r2
      rcases Nat.le_total a (listMax (b :: r2)) with h | h
      · rw [Nat.max_eq_right h]
        exact List.mem_cons_of_mem _ (ih (by simp))
      · rw [Nat.max_eq_left h]; exact List.mem_cons_self _ _

theorem mergeLoop_exists_start : ∀ (rest : List DateRange) (acc : DateRange),
    ∃ r, r ∈ mergeLoop acc rest ∧ r.start = acc.start := by
  intro rest
  induction rest with
  | nil => intro acc; exact ⟨acc, by simp [mergeLoop], rfl⟩
  | cons g gs ih =>
    intro acc
    by_cases h : g.start ≤ acc.stop + 24
    · obtain ⟨r, hr, he⟩ := ih ⟨acc.start, max acc.stop g.stop⟩
      exact ⟨r, by simp [mergeLoop, h, hr], he⟩
    · exact ⟨acc, by simp [mergeLoop, h], rfl⟩

theorem mergeLoop_start_le : ∀ (rest : List DateRange) (acc : DateRange),
    (∀ r ∈ rest, acc.start ≤ r.start) → List.Pairwise rangeLE rest →
    ∀ r ∈ mergeLoop acc rest, acc.start ≤ r.start := by
  intro rest
  induction rest with
  | nil =>
    intro acc _ _ r hr
    simp only [mergeLoop, List.mem_singleton] at hr
    subst hr; exact Nat.le_refl _
  | cons g gs ih =>
    intro acc hstart hpair r hr
    by_cases h : g.start ≤ acc.stop + 24
    · simp only [mergeLoop, h, if_true] at hr
      exact ih ⟨acc.start, max acc.stop g.stop⟩
        (fun r2 hr2 => hstart r2 (List.mem_cons_of_mem _ hr2))
        hpair.of_cons r hr
    · simp only [mergeLoop, h, if_false, List.mem_cons] at hr
      cases hr with
      | inl he => subst he; exact Nat.le_refl _
      | inr hm =>
        exact Nat.le_trans (hstart g (List.mem_cons_self _ _))
          (ih g (fun r2 hr2 => List.rel_of_pairwise_cons hpair hr2)
            hpair.of_cons r hm)

theorem mergeLoop_pairwise : ∀ (rest : List DateRange) (acc : DateRange),
    (∀ r ∈ rest, acc.start ≤ r.start) → List.Pairwise rangeLE rest →
    acc.start ≤ acc.stop + 24 → (∀ r ∈ rest, r.start ≤ r.stop + 24) →
    List.Pairwise (fun r1 r2 => r1.start ≤ r2.start ∧ r1.stop + 24 < r2.start)
      (mergeLoop acc rest) := by
  intro rest
  induction rest with
  | nil =>
    intro acc _ _ _ _
    simp [mergeLoop]
  | cons g gs ih =>
    intro acc hstart hpair hacc hwf
    by_cases h : g.start ≤ acc.stop + 24
    · simp only [mergeLoop, h, if_true]
      exact ih ⟨acc.start, max acc.stop g.stop⟩
        (fun r2 hr2 => hstart r2 (List.mem_cons_of_mem _ hr2))
        hpair.of_cons
        (Nat.le_trans hacc (Nat.add_le_add_right (Nat.le_max_left _ _) 24))
        (fun r2 hr2 => hwf r2 (List.mem_cons_of_mem _ hr2))
    · simp only [mergeLoop, h, if_false]
      apply List.Pairwise.cons
      · intro r hr
        have hgr : g.start ≤ r.start :=
          mergeLoop_start_le gs g
            (fun r2 hr2 => List.rel_of_pairwise_cons hpair hr2)
            hpair.of_cons r hr
        exact ⟨Nat.le_trans (hstart g (List.mem_cons_self _ _)) hgr,
          Nat.lt_of_lt_of_le (Nat.lt_of_not_le h) hgr⟩
      · exact ih g (fun r2 hr2 => List.rel_of_pairwise_cons hpair hr2)
          hpair.of_cons
          (hwf g (List.mem_cons_self _ _))
          (fun r2 hr2 => hwf r2 (List.mem_cons_of_mem _ hr2))

theorem mergeLoop_covers : ∀ (rest : List DateRange) (acc : DateRange) (t : Nat),
    (∀ r ∈ rest, acc.start ≤ r.start) → List.Pairwise rangeLE rest →
    (acc.covers t ∨ ∃ r ∈ rest, r.covers t) →
    ∃ r ∈ mergeLoop acc rest, r.covers t := by
  intro rest
  induction rest with
  | nil =>
    intro acc t _ _ hcov
    cases hcov with
    | inl h => exact ⟨acc, by simp [mergeLoop], h⟩
    | inr h => obtain ⟨r, hr, _⟩ := h; cases hr
  | cons g gs ih =>
    intro acc t hstart hpair hcov
    by_cases h : g.start ≤ acc.stop + 24
    · simp only [mergeLoop, h, if_true]
      apply ih ⟨acc.start, max acc.stop g.stop⟩ t
        (fun r2 hr2 => hstart r2 (List.mem_cons_of_mem _ hr2))
        hpair.of_cons
      cases hcov with
      | inl hc =>
        refine Or.inl ⟨hc.1, Nat.le_trans hc.2 (dayEnd_mono (Nat.le_max_left _ _))⟩
      | inr hex =>
        obtain ⟨r, hr, hc⟩ := hex
        rw [List.mem_cons] at hr
        cases hr with
        | inl he =>
          subst he
          refine Or.inl ⟨Nat.le_trans (toNaiveDate_mono
            (hstart r (List.mem_cons_self _ _))) hc.1,
            Nat.le_trans hc.2 (dayEnd_mono (Nat.le_max_right _ _))⟩
        | inr hm => exact Or.inr ⟨r, hm, hc⟩
    · simp only [mergeLoop, h, if_false]
      cases hcov with
      | inl hc => exact ⟨acc, List.mem_cons_self _ _, hc⟩
      | inr hex =>
        obtain ⟨r, hr, hc⟩ := hex
        rw [List.mem_cons] at hr
        have hrec : ∃ r2 ∈ mergeLoop g gs, r2.covers t := by
          apply ih g t
            (fun r2 hr2 => List.rel_of_pairwise_cons hpair hr2)
            hpair.of_cons
          cases hr with
          | inl he => subst he; exact Or.inl hc
          | inr hm => exact Or.inr ⟨r, hm, hc⟩
        obtain ⟨r2, hr2, hc2⟩ := hrec
        exact ⟨r2, List.mem_cons_of_mem _ hr2, hc2⟩

theorem mergeOverlapping_pairwise (gaps : List DateRange)
    (hwf : ∀ r ∈ gaps, r.start ≤ r.stop + 24) :
    List.Pairwise (fun r1 r2 => r1.start ≤ r2.start ∧ r1.stop + 24 < r2.start)
      (mergeOverlapping gaps) := by
  unfold mergeOverlapping
  cases hs : List.insertionSort rangeLE gaps with
  | nil => exact List.Pairwise.nil
  | cons g gs =>
    have hsorted : List.Pairwise rangeLE (g :: gs) := by
      rw [← hs]; exact List.sorted_insertionSort rangeLE gaps
    have hmem : ∀ r ∈ g :: gs, r ∈ gaps := by
      intro r hr
      rw [← hs] at hr
      exact (List.mem_insertionSort rangeLE).mp hr
    exact mergeLoop_pairwise gs g
      (fun r2 hr2 => List.rel_of_pairwise_cons hsorted hr2)
      hsorted.of_cons
      (hwf g (hmem g (List.mem_cons_self _ _)))
      (fun r2 hr2 => hwf r2 (hmem r2 (List.mem_cons_of_mem _ hr2)))

theorem mergeOverlapping_covers (gaps : List DateRange) (t : Nat)
    (h : ∃ r ∈ gaps, r.covers t) :
    ∃ r ∈ mergeOverlapping gaps, r.covers t := by
  unfold mergeOverlapping
  cases hs : List.insertionSort rangeLE gaps with
  | nil =>
    obtain ⟨r, hr, _⟩ := h
    have : r ∈ List.insertionSort rangeLE gaps :=
      (List.mem_insertionSort rangeLE).mpr hr
    rw [hs] at this
    cases this
  | cons g gs =>
    have hsorted : List.Pairwise rangeLE (g :: gs) := by
      rw [← hs]; exact List.sorted_insertionSort rangeLE gaps
    obtain ⟨r, hr, hc⟩ := h
    have hr2 : r ∈ g :: gs := by
      rw [← hs]; exact (List.mem_insertionSort rangeLE).mpr hr
    apply mergeLoop_covers gs g t
      (fun r3 hr3 => List.rel_of_pairwise_cons hsorted hr3)
      hsorted.of_cons
    rw [List.mem_cons] at hr2
    cases hr2 with
    | inl he => subst he; exact Or.inl hc
    | inr hm => exact Or.inr ⟨r, hm, hc⟩

theorem mergeOverlapping_min_start (gaps : List DateRange) (g : DateRange)
    (hg : g ∈ gaps) :
    ∃ r ∈ mergeOverlapping gaps, r.start ≤ g.start := by
  unfold mergeOverlapping
  cases hs : List.insertionSort rangeLE gaps with
  | nil =>
    have : g ∈ List.insertionSort rangeLE gaps :=
      (List.mem_insertionSort rangeLE).mpr hg
    rw [hs] at this
    cases this
  | cons h0 gs =>
    have hsorted : List.Pairwise rangeLE (h0 :: gs) := by
      rw [← hs]; exact List.sorted_insertionSort rangeLE gaps
    have hg2 : g ∈ h0 :: gs := by
      rw [← hs]; exact (List.mem_insertionSort rangeLE).mpr hg
    have hle : h0.start ≤ g.start := by
      rw [List.mem_cons] at hg2
      cases hg2 with
      | inl he => subst he; exact Nat.le_refl _
      | inr hm => exact List.rel_of_pairwise_cons hsorted hm
    obtain ⟨r, hr, he⟩ := mergeLoop_exists_start gs h0
    exact ⟨r, hr, he ▸ hle⟩

theorem mem_preGap {m s e : Nat} {r : DateRange} (h : r ∈ preGap m s e) :
    r = ⟨s, toNaiveDate (min (m - 1) e)⟩ ∧ s < m ∧ s ≤ min (m - 1) e := by
  unfold preGap at h
  by_cases h1 : s < m
  · simp only [h1, if_true] at h
    by_cases h2 : s ≤ min (m - 1) e
    · simp only [h2, if_true, List.mem_singleton] at h
      exact ⟨h, h1, h2⟩
    · simp [h2] at h
  · simp [h1] at h

theorem preGap_self {m s e : Nat} (h1 : s < m) (h2 : s ≤ min (m - 1) e) :
    (⟨s, toNaiveDate (min (m - 1) e)⟩ : DateRange) ∈ preGap m s e := by
  simp [preGap, h1, h2]

theorem mem_postGap {M s e : Nat} {r : DateRange} (h : r ∈ postGap M s e) :
    r = ⟨toNaiveDate (max (M + 1) s), e⟩ ∧ M < e ∧ max (M + 1) s ≤ e := by
  unfold postGap at h
  by_cases h1 : M < e
  · simp only [h1, if_true] at h
    by_cases h2 : max (M + 1) s ≤ e
    · simp only [h2, if_true, List.mem_singleton] at h
      exact ⟨h, h1, h2⟩
    · simp [h2] at h
  · simp [h1] at h

theorem postGap_self {M s e : Nat} (h1 : M < e) (h2 : max (M + 1) s ≤ e) :
    (⟨toNaiveDate (max (M + 1) s), e⟩ : DateRange) ∈ postGap M s e := by
  simp [postGap, h1, h2]

theorem mem_recentGap {M s e cutoff : Nat} {r : DateRange}
    (h : r ∈ recentGap M s e cutoff) :
    r = ⟨toNaiveDate (max cutoff s), e⟩ ∧ cutoff < M ∧ cutoff < e
      ∧ max cutoff s ≤ e := by
  unfold recentGap at h
  by_cases h1 : cutoff < M ∧ cutoff < e
  · have hb : (decide (cutoff < M) && decide (cutoff < e)) = true := by
      simp [h1.1, h1.2]
    simp only [hb, if_true] at h
    by_cases h2 : max cutoff s ≤ e
    · simp only [h2, if_true, List.mem_singleton] at h
      exact ⟨h, h1.1, h1.2, h2⟩
    · simp [h2] at h
  · have hb : (decide (cutoff < M) && decide (cutoff < e)) = false := by
      rw [Bool.and_eq_false_iff]
      rcases Decidable.not_and_iff_or_not.mp h1 with hc | hc
      · exact Or.inl (by simpa using hc)
      · exact Or.inr (by simpa using hc)
    simp [hb] at h

theorem recentGap_self {M s e cutoff : Nat} (h1 : cutoff < M) (h2 : cutoff < e)
    (h3 : max cutoff s ≤ e) :
    (⟨toNaiveDate (max cutoff s), e⟩ : DateRange) ∈ recentGap M s e cutoff := by
  simp [recentGap, h1, h2, h3]

theorem candidates_wf (m M s e cutoff : Nat) :
    ∀ r ∈ preGap m s e ++ postGap M s e ++ recentGap M s e cutoff,
      r.start ≤ r.stop + 24 := by
  intro r hr
  rw [List.mem_append, List.mem_append] at hr
  rcases hr with (h1 | h2) | h3
  · obtain ⟨he, _, hle⟩ := mem_preGap h1
    subst he
    have hy : min (m - 1) e ≤ toNaiveDate (min (m - 1) e) + 23 :=
      le_dayEnd (min (m - 1) e)
    show s ≤ toNaiveDate (min (m - 1) e) + 24
    omega
  · obtain ⟨he, _, _⟩ := mem_postGap h2
    subst he
    have h4 := toNaiveDate_le (max (M + 1) s)
    have h5 := Nat.le_max_right (M + 1) s
    show toNaiveDate (max (M + 1) s) ≤ e + 24
    omega
  · obtain ⟨he, _, _, hle⟩ := mem_recentGap h3
    subst he
    have h4 := toNaiveDate_le (max cutoff s)
    show toNaiveDate (max cutoff s) ≤ e + 24
    omega

theorem effSelect_sub (cached : Frame) (columns : List String) (ei : List Nat)
    (h : effSelect cached columns = some ei) : ∀ x ∈ ei, x ∈ cached.idx := by
  unfold effSelect at h
  split at h
  · rw [Option.some_inj] at h
    subst h; exact fun x hx => hx
  · split at h
    · exact Option.noConfusion h
    · split at h
      · exact Option.noConfusion h
      · rw [Option.some_inj] at h
        subst h
        exact fun x hx => List.mem_of_mem_filter hx

theorem effSelect_ne (cached : Frame) (columns : List String) (ei : List Nat)
    (hne : cached.isEmpty = false)
    (h : effSelect cached columns = some ei) : ei ≠ [] := by
  unfold effSelect at h
  unfold Frame.isEmpty at hne
  rw [Bool.or_eq_false_iff] at hne
  split at h
  · rw [Option.some_inj] at h
    subst h
    intro hc
    rw [hc] at hne
    simp at hne
  · split at h
    · exact Option.noConfusion h
    · split at h
      · exact Option.noConfusion h
      · rw [Option.some_inj] at h
        subst h
        intro hc
        rename_i h3
        rw [hc] at h3
        simp at h3

/-- **C2.** For every cached frame with index coverage `[a, b]` and every
requested range `[s, e]`, the sub-ranges returned by `CacheStore.find_gaps`
together with `[a, b]` cover `[s, e]` (ranges satisfy whole calendar days,
as they are consumed by the day-granular fetcher), and after the final
merge step the returned sub-ranges are sorted by start and pairwise
non-overlapping. -/
theorem find_gaps_correct (cached : Frame) (s e : Nat) (columns : List String)
    (now ttl : Nat) (hse : s ≤ e) :
    (∀ t, s ≤ t → t ≤ e →
      (∃ r ∈ CacheStore.find_gaps cached s e columns now ttl, r.covers t)
      ∨ (cached.idx ≠ [] ∧ listMin cached.idx ≤ t ∧ t ≤ listMax cached.idx))
    ∧ List.Pairwise
        (fun r1 r2 => r1.start ≤ r2.start ∧ ∀ u, r1.covers u → ¬ r2.covers u)
        (CacheStore.find_gaps cached s e columns now ttl) := by
  have hsingle : ∀ t, s ≤ t → t ≤ e → (⟨s, e⟩ : DateRange).covers t := by
    intro t h1 h2
    exact ⟨Nat.le_trans (toNaiveDate_le s) h1, Nat.le_trans h2 (le_dayEnd e)⟩
  unfold CacheStore.find_gaps
  by_cases hemp : cached.isEmpty
  · simp only [hemp, if_true]
    refine ⟨fun t h1 h2 => Or.inl ⟨⟨s, e⟩, List.mem_singleton.mpr rfl,
      hsingle t h1 h2⟩, ?_⟩
    simp
  · rw [Bool.not_eq_true] at hemp
    simp only [hemp, Bool.false_eq_true, if_false]
    cases heff : effSelect cached columns with
    | none =>
      refine ⟨fun t h1 h2 => Or.inl ⟨⟨s, e⟩, List.mem_singleton.mpr rfl,
        hsingle t h1 h2⟩, ?_⟩
      simp
    | some ei =>
      have hsub := effSelect_sub cached columns ei heff
      have hne := effSelect_ne cached columns ei hemp heff
      constructor
      · intro t h1 h2
        by_cases hlo : t < listMin ei
        · left
          apply mergeOverlapping_covers
          have h1m : s < listMin ei := Nat.lt_of_le_of_lt h1 hlo
          have h2m : s ≤ min (listMin ei - 1) e := by omega
          refine ⟨⟨s, toNaiveDate (min (listMin ei - 1) e)⟩,
            List.mem_append.mpr (Or.inl (List.mem_append.mpr
              (Or.inl (preGap_self h1m h2m)))), ?_, ?_⟩
          · exact Nat.le_trans (toNaiveDate_le s) h1
          · rw [dayEnd_toNaiveDate]
            have : t ≤ min (listMin ei - 1) e := by omega
            exact Nat.le_trans this (le_dayEnd _)
        · by_cases hhi : listMax ei < t
          · left
            apply mergeOverlapping_covers
            have h1M : listMax ei < e := Nat.lt_of_lt_of_le hhi h2
            have h2M : max (listMax ei + 1) s ≤ e := by omega
            refine ⟨⟨toNaiveDate (max (listMax ei + 1) s), e⟩,
              List.mem_append.mpr (Or.inl (List.mem_append.mpr
                (Or.inr (postGap_self h1M h2M)))), ?_, ?_⟩
            · show toNaiveDate (toNaiveDate (max (listMax ei + 1) s)) ≤ t
              have hmx : max (listMax ei + 1) s ≤ t := by omega
              exact Nat.le_trans (toNaiveDate_le _)
                (Nat.le_trans (toNaiveDate_le _) hmx)
            · exact Nat.le_trans h2 (le_dayEnd e)
          · right
            have hmm : listMin ei ∈ cached.idx := hsub _ (listMin_mem ei hne)
            have hMm : listMax ei ∈ cached.idx := hsub _ (listMax_mem ei hne)
            refine ⟨List.ne_nil_of_mem hmm, ?_, ?_⟩
            · exact Nat.le_trans (listMin_le cached.idx _ hmm)
                (Nat.le_of_not_lt hlo)
            · exact Nat.le_trans (Nat.le_of_not_lt hhi)
                (le_listMax cached.idx _ hMm)
      · apply List.Pairwise.imp ?_
          (mergeOverlapping_pairwise _ (candidates_wf (listMin ei) (listMax ei)
            s e (now - ttl)))
        intro a b hab
        refine ⟨hab.1, fun u hu1 hu2 => ?_⟩
        have hlt : dayEnd a.stop < toNaiveDate b.start :=
          dayEnd_lt_toNaiveDate (by omega)
        have := hu1.2
        have := hu2.1
        omega

theorem find_gaps_correct_witness :
    (0 ≤ 50)
    ∧ ((∀ t, 0 ≤ t → t ≤ 50 →
        (∃ r ∈ CacheStore.find_gaps
            ⟨[30], ["A"], [⟨30, "A", 1⟩]⟩ 0 50 [] 1000 48, r.covers t)
        ∨ ((⟨[30], ["A"], [⟨30, "A", 1⟩]⟩ : Frame).idx ≠ []
            ∧ listMin (⟨[30], ["A"], [⟨30, "A", 1⟩]⟩ : Frame).idx ≤ t
            ∧ t ≤ listMax (⟨[30], ["A"], [⟨30, "A", 1⟩]⟩ : Frame).idx))
      ∧ List.Pairwise
          (fun r1 r2 => r1.start ≤ r2.start ∧ ∀ u, r1.covers u → ¬ r2.covers u)
          (CacheStore.find_gaps ⟨[30], ["A"], [⟨30, "A", 1⟩]⟩ 0 50 [] 1000 48)) :=
  ⟨by decide,
    find_gaps_correct ⟨[30], ["A"], [⟨30, "A", 1⟩]⟩ 0 50 [] 1000 48 (by decide)⟩

/-- **C3 (counterexample).** The claim is false as stated: for a cached
frame whose column `A` is dense over the whole request (here every hour of
`[72, 73]`) and whose column `B` is entirely holes, `find_gaps` with
`columns = [A]` is *not* empty when the cached data lies inside the
recent-refresh window — the recent-refresh rule re-emits the request. -/
theorem find_gaps_per_column_cex :
    CacheStore.find_gaps ⟨[72, 73], ["A", "B"], [⟨72, "A", 1⟩, ⟨73, "A", 2⟩]⟩
        72 73 ["A"] 100 48
      = [⟨72, 73⟩]
    ∧ ([⟨72, 73⟩] : List DateRange) ≠ [] := by
  constructor
  · decide
  · decide

/-- **C3 (amended).** Per-column gap detection, restricted to cached data
older than the recent-refresh cutoff: a requested column absent from the
cached frame yields the whole request as a single gap; only rows where all
requested columns are non-NaN count as covered, so a column that is present
but entirely holes also yields the whole request; and a column `A` whose
non-NaN rows span the request yields no gaps provided the cached maximum is
at or before `now - ttl`. -/
theorem find_gaps_per_column (f : Frame) (s e now ttl : Nat) (A B C : String)
    (hWF : f.WF)
    (hfne : f.isEmpty = false)
    (heff : effectiveIdx f [A] ≠ [])
    (hlo : listMin (effectiveIdx f [A]) ≤ s)
    (hhi : e ≤ listMax (effectiveIdx f [A]))
    (hold : listMax (effectiveIdx f [A]) ≤ now - ttl)
    (hB : B ∈ f.cols)
    (hBhole : ∀ t ∈ f.idx, f.lookup t B = none)
    (hC : C ∉ f.cols) :
    CacheStore.find_gaps f s e [A] now ttl = []
    ∧ CacheStore.find_gaps f s e [B] now ttl = [⟨s, e⟩]
    ∧ CacheStore.find_gaps f s e [C] now ttl = [⟨s, e⟩] := by
  have hA : A ∈ f.cols := by
    obtain ⟨t0, ht0⟩ := List.exists_mem_of_ne_nil _ heff
    unfold effectiveIdx at ht0
    have ht0' := List.mem_filter.mp ht0
    have hall := ht0'.2
    simp only [List.all_cons, List.all_nil, Bool.and_true] at hall
    unfold Frame.lookup at hall
    cases hfind : f.cells.find? (fun x => x.t == t0 && x.col == A) with
    | none => rw [hfind] at hall; simp at hall
    | some cell =>
      have hcellmem := List.mem_of_find?_eq_some hfind
      have hpred := List.find?_some hfind
      simp only [Bool.and_eq_true, beq_iff_eq] at hpred
      have hcol := (hWF.2.2.2 cell hcellmem).2
      rw [hpred.2] at hcol
      exact hcol
  refine ⟨?_, ?_, ?_⟩
  · have hsel : effSelect f [A] = some (effectiveIdx f [A]) := by
      unfold effSelect
      rw [if_neg (by simp), if_neg (by simp [hA]),
        if_neg (by simp [List.isEmpty_iff, heff])]
    unfold CacheStore.find_gaps
    simp only [hfne, Bool.false_eq_true, if_false, hsel]
    have hpre : preGap (listMin (effectiveIdx f [A])) s e = [] := by
      unfold preGap
      rw [if_neg (Nat.not_lt.mpr hlo)]
    have hpost : postGap (listMax (effectiveIdx f [A])) s e = [] := by
      unfold postGap
      rw [if_neg (Nat.not_lt.mpr hhi)]
    have hrec : recentGap (listMax (effectiveIdx f [A])) s e (now - ttl) = [] := by
      unfold recentGap
      have hb : (decide (now - ttl < listMax (effectiveIdx f [A]))
          && decide (now - ttl < e)) = false := by
        simp [Nat.not_lt.mpr hold]
      rw [if_neg (by rw [hb]; exact Bool.false_ne_true)]
    rw [hpre, hpost, hrec]
    rfl
  · have hei : effectiveIdx f [B] = [] := by
      unfold effectiveIdx
      rw [List.filter_eq_nil_iff]
      intro t ht
      simp [hBhole t ht]
    have hsel : effSelect f [B] = none := by
      unfold effSelect
      rw [if_neg (by simp), if_neg (by simp [hB]), if_pos (by simp [hei])]
    unfold CacheStore.find_gaps
    simp only [hfne, Bool.false_eq_true, if_false, hsel]
  · have hsel : effSelect f [C] = none := by
      unfold effSelect
      rw [if_neg (by simp), if_pos (by simp [hC])]
    unfold CacheStore.find_gaps
    simp only [hfne, Bool.false_eq_true, if_false, hsel]

theorem find_gaps_per_column_witness :
    ((⟨[72, 80, 96], ["A", "B"], [⟨72, "A", 1⟩, ⟨80, "A", 2⟩, ⟨96, "A", 3⟩]⟩
        : Frame).WF)
    ∧ (CacheStore.find_gaps
          ⟨[72, 80, 96], ["A", "B"], [⟨72, "A", 1⟩, ⟨80, "A", 2⟩, ⟨96, "A", 3⟩]⟩
          72 96 ["A"] 1000 48 = []
        ∧ CacheStore.find_gaps
          ⟨[72, 80, 96], ["A", "B"], [⟨72, "A", 1⟩, ⟨80, "A", 2⟩, ⟨96, "A", 3⟩]⟩
          72 96 ["B"] 1000 48 = [⟨72, 96⟩]
        ∧ CacheStore.find_gaps
          ⟨[72, 80, 96], ["A", "B"], [⟨72, "A", 1⟩, ⟨80, "A", 2⟩, ⟨96, "A", 3⟩]⟩
          72 96 ["C"] 1000 48 = [⟨72, 96⟩]) :=
  ⟨by decide,
    find_gaps_per_column
      ⟨[72, 80, 96], ["A", "B"], [⟨72, "A", 1⟩, ⟨80, "A", 2⟩, ⟨96, "A", 3⟩]⟩
      72 96 1000 48 "A" "B" "C"
      (by decide) (by decide) (by decide) (by decide) (by decide) (by decide)
      (by decide) (by decide) (by decide)⟩

/-- **C4 (counterexample).** The claim is false as stated: for the empty
cached frame and a request `[now, now]` ending at the current time (with
`recent_ttl = 48`), `find_gaps` returns the single sub-range `[now, now]`,
and no returned sub-range starts at or before `now - 48`. -/
theorem recent_refresh_cex :
    (CacheStore.find_gaps emptyFrame 100 100 [] 100 48).filter
        (fun r => r.start ≤ 100 - 48) = []
    ∧ CacheStore.find_gaps emptyFrame 100 100 [] 100 48 = [⟨100, 100⟩] := by
  constructor
  · decide
  · decide

/-- **C4 (amended).** The recent-refresh guarantee holds in the form the
code implements it: whenever the cached frame is non-empty, its maximum lies
past `cutoff = now - ttl` and the requested end lies past `cutoff`, the
returned list contains a sub-range whose start is no later than
`max(cutoff, start)` — in particular no later than `now - ttl` whenever the
request starts at or before the cutoff. -/
theorem recent_refresh_amended (f : Frame) (s e now ttl : Nat)
    (hfne : f.isEmpty = false)
    (hM : now - ttl < listMax f.idx)
    (he : now - ttl < e)
    (hse : s ≤ e) :
    ∃ r ∈ CacheStore.find_gaps f s e [] now ttl,
      r.start ≤ max (now - ttl) s := by
  have hsel : effSelect f [] = some f.idx := rfl
  unfold CacheStore.find_gaps
  simp only [hfne, Bool.false_eq_true, if_false, hsel]
  have hrs : max (now - ttl) s ≤ e := by omega
  have hg3 : (⟨toNaiveDate (max (now - ttl) s), e⟩ : DateRange)
      ∈ preGap (listMin f.idx) s e ++ postGap (listMax f.idx) s e
        ++ recentGap (listMax f.idx) s e (now - ttl) :=
    List.mem_append.mpr (Or.inr (recentGap_self hM he hrs))
  obtain ⟨r, hr, hle⟩ := mergeOverlapping_min_start _ _ hg3
  exact ⟨r, hr, Nat.le_trans hle (toNaiveDate_le _)⟩

theorem recent_refresh_amended_witness :
    ((⟨[72, 80, 96], ["A"], [⟨72, "A", 1⟩]⟩ : Frame).isEmpty = false)
    ∧ (∃ r ∈ CacheStore.find_gaps ⟨[72, 80, 96], ["A"], [⟨72, "A", 1⟩]⟩
          0 96 [] 100 48,
        r.start ≤ max (100 - 48) 0) :=
  ⟨by decide,
    recent_refresh_amended ⟨[72, 80, 96], ["A"], [⟨72, "A", 1⟩]⟩ 0 96 100 48
      (by decide) (by decide) (by decide) (by decide)⟩

/-- **C5 (counterexample).** The claim is false as stated: the wide frame
built by `IndicatorHandle._to_wide` and handed to `CacheStore.write`
carries the configured display timezone `Europe/Madrid`, not UTC — the
conversion to the display zone happens at parse time
(`to_dataframe(..., timezone=TIMEZONE)`), before storage.  The two
observations here carry mixed offsets (+1 and +2); their instants are
normalised, but the stored index timezone is `Europe/Madrid`. -/
theorem utc_storage_cex :
    IndicatorHandle.toWideIdx
        [⟨1, 1, some 3, some "España", 50⟩,
         ⟨25, 2, some 8828, some "Países Bajos", 45⟩]
      = some ⟨[0, 23], "Europe/Madrid"⟩
    ∧ ¬(TIMEZONE = "UTC") := by
  constructor
  · decide
  · decide

/-- **C5 (amended).** Every non-empty frame passed to `CacheStore.write` by
`IndicatorHandle.historical` has its index in the configured display
timezone `TIMEZONE` (`Europe/Madrid`), with the instants being exactly the
UTC instants of the fetched observations (mixed-offset observations are
normalised to common instants by `pd.to_datetime(..., utc=True)`), sorted
and de-duplicated; the timezone conversion preserves instants, so only the
index's presentation zone — not the instants — differs from UTC. -/
theorem storage_timezone_amended (values : List RawValue)
    (h : values.isEmpty = false) :
    ∃ ix, IndicatorHandle.toWideIdx values = some ix
      ∧ ix.tz = TIMEZONE
      ∧ List.Sorted (· ≤ ·) ix.instants
      ∧ ∀ i : Int, i ∈ ix.instants ↔ ∃ v ∈ values, parseUTC v = i := by
  unfold IndicatorHandle.toWideIdx
  simp only [h, Bool.false_eq_true, if_false]
  refine ⟨_, rfl, rfl, List.sorted_insertionSort _ _, fun i => ?_⟩
  rw [List.mem_insertionSort, List.mem_dedup]
  unfold toDataframeIdx
  exact List.mem_map

theorem storage_timezone_amended_witness :
    (([⟨1, 1, some 3, some "España", 50⟩,
        ⟨25, 2, some 8828, some "Países Bajos", 45⟩]
          : List RawValue).isEmpty = false)
    ∧ (∃ ix, IndicatorHandle.toWideIdx
          [⟨1, 1, some 3, some "España", 50⟩,
           ⟨25, 2, some 8828, some "Países Bajos", 45⟩] = some ix
        ∧ ix.tz = TIMEZONE
        ∧ List.Sorted (· ≤ ·) ix.instants
        ∧ ∀ i : Int, i ∈ ix.instants ↔
            ∃ v ∈ [⟨1, 1, some 3, some "España", 50⟩,
                   ⟨25, 2, some 8828, some "Países Bajos", 45⟩],
              parseUTC v = i) :=
  ⟨by decide,
    storage_timezone_amended
      [⟨1, 1, some 3, some "España", 50⟩,
       ⟨25, 2, some 8828, some "Países Bajos", 45⟩] (by decide)⟩

/-- **C6.** Code bug, evaluated at the failing input of the repository's own
tests: a `historical` fetch whose response contains the pair
`(8828, "Países Bajos")` absent from the item's metadata appends it to the
handle's in-memory metadata only — the global registry persisted on disk is
unchanged, because nothing in the package ever calls
`CacheStore.merge_geos` — and `resolve_geo("Países Bajos")` on any other
item (whose metadata lacks the pair) fails with `ValueError` instead of
returning `8828`; only the enriched handle itself can resolve the name. -/
theorem geo_enrichment_not_persisted :
    IndicatorHandle.historicalGeoEffects ⟨[(3, "España")], []⟩
        [⟨1, 1, some 8828, some "Países Bajos", 45⟩]
      = ⟨[(3, "España"), (8828, "Países Bajos")], []⟩
    ∧ IndicatorHandle.resolveGeo [(3, "España")] "Países Bajos" = none
    ∧ IndicatorHandle.resolveGeo [(3, "España"), (8828, "Países Bajos")]
        "Países Bajos" = some 8828 := by
  refine ⟨?_, ?_, ?_⟩
  · decide
  · decide
  · decide

/-- **C7.** Code bug, evaluated on the catalogue state: `IndicatorsManager.
list()` performs one transport call unconditionally and neither reads nor
writes the catalogue cache, so two consecutive `list()` calls issue two
backend requests regardless of any fresh stored catalogue, and the
catalogue file is never written (the repository's own tests
`test_list_caches_catalog` and `test_list_cache_stores_lightweight_catalog`
expect one request and a persisted projection). -/
theorem list_ignores_catalog_cache (backend : List (Nat × String × String))
    (file : Option CatalogFile) :
    IndicatorsManager.listTwiceCalls backend file = 2
    ∧ (IndicatorsManager.list backend file).2.2 = file
    ∧ (IndicatorsManager.list backend file).1 = backend :=
  ⟨rfl, rfl, rfl⟩

/-- **C8.** For every byte sequence stored in place of an item's data file
that `pd.read_parquet` cannot parse, `CacheStore.read` returns an empty
frame and the offending file is deleted as part of the read; a missing file
likewise yields an empty frame (and stays absent). -/
theorem read_corruption_survival (parse : List Nat → Option Frame)
    (b : List Nat) (s e : Nat) (cols : List String)
    (h : parse b = none) :
    CacheStore.read parse (some b) s e cols = (emptyFrame, none)
    ∧ CacheStore.read parse none s e cols = (emptyFrame, none) := by
  constructor
  · simp [CacheStore.read, h]
  · rfl

theorem read_corruption_survival_witness :
    ((fun _ : List Nat => (none : Option Frame)) [7] = none)
    ∧ (CacheStore.read (fun _ => none) (some [7]) 0 48 [] = (emptyFrame, none)
      ∧ CacheStore.read (fun _ => none) none 0 48 [] = (emptyFrame, none)) :=
  ⟨rfl, read_corruption_survival (fun _ => none) [7] 0 48 [] rfl⟩

theorem underDir_nil (l : List String) : underDir [] l = true := by
  cases l <;> rfl

theorem underDir_append (dir rest : List String) :
    underDir dir (dir ++ rest) = true := by
  induction dir with
  | nil => exact underDir_nil rest
  | cons d ds ih =>
    show (d == d && underDir ds (ds ++ rest)) = true
    rw [ih]
    simp

theorem underDir_of_append {a b l : List String}
    (h : underDir (a ++ b) l = true) : underDir a l = true := by
  induction a generalizing l with
  | nil => exact underDir_nil l
  | cons d ds ih =>
    cases l with
    | nil => exact absurd h (by simp [underDir])
    | cons c rest =>
      have h2 : (d == c && underDir (ds ++ b) rest) = true := h
      rw [Bool.and_eq_true] at h2
      show (d == c && underDir ds rest) = true
      rw [Bool.and_eq_true]
      exact ⟨h2.1, ih h2.2⟩

mutual

theorem unzipMember_safety (m : ZMember) (folder : FsPath)
    (hz : noBadZip m = true) (hr : relativeNested m = true) :
    ∀ p ∈ unzipMember folder m,
      p.abs = folder.abs ∧ underDir folder.comps p.comps = true := by
  cases m with
  | file name =>
    intro p hp
    unfold unzipMember at hp
    by_cases hez : strEndsWithZip name
    · simp [hez] at hp
    · simp only [hez, Bool.false_eq_true, if_false, List.mem_singleton] at hp
      subst hp
      exact ⟨rfl, underDir_append _ _⟩
  | archive name ms =>
    intro p hp
    unfold unzipMember at hp
    by_cases hez : strEndsWithZip name
    · rw [if_pos hez] at hp
      have hr2 : (!(strStartsWithSlash (firstDotToken name))
          && relativeNestedList ms) = true := hr
      rw [Bool.and_eq_true, Bool.not_eq_true'] at hr2
      have hz2 : noBadZipList ms = true := hz
      have hfold : pathJoin folder (firstDotToken name)
          = ⟨folder.abs, folder.comps ++ splitComponents (firstDotToken name)⟩ := by
        unfold pathJoin
        rw [if_neg (by rw [hr2.1]; exact Bool.false_ne_true)]
      rw [hfold] at hp
      have hres := unzipList_safety ms
        ⟨folder.abs, folder.comps ++ splitComponents (firstDotToken name)⟩
        hz2 hr2.2 p hp
      exact ⟨hres.1, underDir_of_append hres.2⟩
    · rw [if_neg hez] at hp
      rw [List.mem_singleton] at hp
      subst hp
      exact ⟨rfl, underDir_append _ _⟩

theorem unzipList_safety (ms : List ZMember) (folder : FsPath)
    (hz : noBadZipList ms = true) (hr : relativeNestedList ms = true) :
    ∀ p ∈ unzipList folder ms,
      p.abs = folder.abs ∧ underDir folder.comps p.comps = true := by
  cases ms with
  | nil =>
    intro p hp
    unfold unzipList at hp
    cases hp
  | cons m rest =>
    intro p hp
    unfold unzipList at hp
    rw [List.mem_append] at hp
    have hz2 : (noBadZip m && noBadZipList rest) = true := hz
    have hr2 : (relativeNested m && relativeNestedList rest) = true := hr
    rw [Bool.and_eq_true] at hz2 hr2
    cases hp with
    | inl h => exact unzipMember_safety m folder hz2.1 hr2.1 p h
    | inr h => exact unzipList_safety rest folder hz2.2 hr2.2 p h

end

/-- **C9 (counterexample).** The claim is false as stated: a nested `.zip`
member carrying an absolute name escapes the target directory.  Extracting
`[archive "/evil/x.zip" [file "f.txt"]]` into `/tmp/target` writes
`/evil/x/f.txt`, because `folder / filename.split(".")[0]` with an absolute
right operand discards the target prefix.  (Members with `..` segments, by
contrast, are sanitised by `ZipFile.extract` rather than rejected.) -/
theorem unzip_escape_cex :
    unzipList ⟨true, ["tmp", "target"]⟩
        [ZMember.archive "/evil/x.zip" [ZMember.file "f.txt"]]
      = [⟨true, ["evil", "x", "f.txt"]⟩]
    ∧ underDir ["tmp", "target"] ["evil", "x", "f.txt"] = false := by
  constructor
  · decide
  · decide

/-- **C9 (amended).** For blobs whose nested archive names are all relative
(and whose plain members never end in `.zip`, which would raise
`BadZipFile`), the expander never writes outside the target directory:
every written path stays on the target's filesystem root and extends the
target's components.  Members with `..` segments or absolute names are not
rejected but sanitised by `ZipFile.extract` — `../escape.txt` is written as
`escape.txt` inside the target.  Nested `.zip` members are extracted into
the sub-directory of the target named by the text before the first dot of
the nested archive's name. -/
theorem unzip_safety_amended (folder : FsPath) (ms : List ZMember)
    (hz : noBadZipList ms = true) (hr : relativeNestedList ms = true) :
    (∀ p ∈ unzipList folder ms,
      p.abs = folder.abs ∧ underDir folder.comps p.comps = true)
    ∧ sanitizeArc "../escape.txt" = ["escape.txt"] :=
  ⟨unzipList_safety ms folder hz hr, by decide⟩

theorem unzip_safety_amended_witness :
    (noBadZipList [ZMember.file "../escape.txt",
        ZMember.archive "inner.zip" [ZMember.file "a.txt"]] = true)
    ∧ (relativeNestedList [ZMember.file "../escape.txt",
        ZMember.archive "inner.zip" [ZMember.file "a.txt"]] = true)
    ∧ ((∀ p ∈ unzipList ⟨true, ["tmp", "t"]⟩
          [ZMember.file "../escape.txt",
           ZMember.archive "inner.zip" [ZMember.file "a.txt"]],
        p.abs = (⟨true, ["tmp", "t"]⟩ : FsPath).abs
          ∧ underDir (⟨true, ["tmp", "t"]⟩ : FsPath).comps p.comps = true)
      ∧ sanitizeArc "../escape.txt" = ["escape.txt"]) :=
  ⟨by decide, by decide,
    unzip_safety_amended ⟨true, ["tmp", "t"]⟩
      [ZMember.file "../escape.txt",
       ZMember.archive "inner.zip" [ZMember.file "a.txt"]]
      (by decide) (by decide)⟩

/-- **C10.** `CacheStore.clear` called with `endpoint=None` and an
`indicator_id` does not scope the deletion to that item: the guard
`if endpoint and indicator_id is not None` is false, the `elif endpoint`
guard is false, and the call falls through to the no-argument branch,
recursively deleting the entire cache root — every endpoint, the geo
registry and all archives — and returning the count of every file removed,
exactly as `clear()` with no arguments. -/
theorem clear_none_endpoint_wipes_all (files : List (List String))
    (cacheDir : List String) (i : Nat) :
    CacheStore.clear files cacheDir none (some i)
      = CacheStore.clear files cacheDir none none
    ∧ (CacheStore.clear files cacheDir none (some i)).1
        = (files.filter (fun f => underDir cacheDir f)).length
    ∧ (CacheStore.clear files cacheDir none (some i)).2
        = files.filter (fun f => !(underDir cacheDir f)) :=
  ⟨rfl, rfl, rfl⟩

end Esios
